import Mathlib

/-!
# Verification of the SelfObject prototype-based object model

A shallow embedding of `src/SelfObject.js` (the canonical class definition,
lines 6-139): objects hold named slots, parent markers, an ordered message
list, an optional primitive value and an optional native function.  The
object graph is modelled as a heap (list of objects addressed by natural
number handles), which gives JavaScript's reference identity: slot values
hold handles, `copy` allocates a fresh handle with the same record, the
BFS visited set compares handles.

Native functions (`primitiveFn`) are JS closures in the source.  They are
embedded as codes of an arbitrary type `κ` interpreted by an external
interpreter that may read the heap and allocate fresh objects, which is the
spec's purity contract for native functions (they interact with the rest of
the graph only through their return value).

The mutually recursive evaluator is given fuel; `Outcome.outOfFuel` marks
exhaustion and is distinct from the error outcomes the source can produce
(`MessageNotFound`, or a JS `TypeError` from calling a method on a
non-object).
-/

namespace SelfModel

/-- A JavaScript primitive payload stored in the `primitive` field
(`this.primitive !== null` is modelled by `Option`). -/
inductive Prim where
  | num (n : Int)
  | str (s : String)
  | pbool (b : Bool)
  deriving DecidableEq, Repr

/-- A JavaScript value that can sit in a slot: a reference to a heap object,
or a non-object value (`assignSlot` accepts any value). -/
inductive SlotVal where
  | ref (r : Nat)
  | vnull
  | vundefined
  | vbool (b : Bool)
  | vnum (n : Int)
  | vstr (s : String)
  deriving DecidableEq, Repr

/-- JavaScript truthiness of a slot value: objects are truthy, `null`,
`undefined`, `false`, `0` and `""` are falsy. -/
def SlotVal.truthy : SlotVal → Bool
  | .ref _ => true
  | .vnull => false
  | .vundefined => false
  | .vbool b => b
  | .vnum n => n != 0
  | .vstr s => s != ""

/-- One SelfObject record.  `slots` is an insertion-ordered map (JS object),
`parents` an insertion-ordered set of names (JS `Set`), `messages` an
ordered list, `primitiveFn` an optional native-function code of type `κ`. -/
structure Obj (κ : Type) where
  slots : List (String × SlotVal)
  parents : List String
  messages : List String
  primitive : Option Prim
  primitiveFn : Option κ
  deriving DecidableEq, Repr

/-- The heap: objects addressed by handle (list index). -/
abbrev Heap (κ : Type) := List (Obj κ)

/-- Heap lookup by handle. -/
def hget : Heap κ → Nat → Option (Obj κ)
  | [], _ => none
  | o :: _, 0 => some o
  | _ :: t, n + 1 => hget t n

/-- Replace the object at a handle (in-place mutation of a heap object). -/
def hset : Heap κ → Nat → Obj κ → Heap κ
  | [], _, _ => []
  | _ :: t, 0, o => o :: t
  | a :: t, n + 1, o => a :: hset t n o

/-- Lookup in the insertion-ordered slot map (`this.slots[name]`,
`none` = key absent = JS `undefined`). -/
def lookupSlot : List (String × SlotVal) → String → Option SlotVal
  | [], _ => none
  | (k, v) :: t, name => if k = name then some v else lookupSlot t name

/-- JS property write on the slot map: overwrite in place if the key exists,
otherwise append (preserving insertion order). -/
def setKey : List (String × SlotVal) → String → SlotVal → List (String × SlotVal)
  | [], name, v => [(name, v)]
  | (k, w) :: t, name, v =>
      if k = name then (k, v) :: t else (k, w) :: setKey t name v

/-- JS `Set.add` on the parent-name set: append if not already present. -/
def addParent (l : List String) (name : String) : List String :=
  if name ∈ l then l else l ++ [name]

/-- The value of `this.slots[name]` as a JS value (`undefined` when the key
is absent). -/
def Obj.slotVal (o : Obj κ) (name : String) : SlotVal :=
  match lookupSlot o.slots name with
  | some v => v
  | none => .vundefined

/-- Source `copy` — field-by-field shallow clone of the record: new containers with
identical content, referenced sub-objects (handles) shared. -/
def Obj.copy (o : Obj κ) : Obj κ :=
  { slots := o.slots
    parents := o.parents
    messages := o.messages
    primitive := o.primitive
    primitiveFn := o.primitiveFn }

/-- Source `assignSlot` — unconditionally set/overwrite a slot, any value allowed. -/
def assignSlot (o : Obj κ) (name : String) (v : SlotVal) : Obj κ :=
  { o with slots := setKey o.slots name v }

/-- Source `makeParent` — add the name to `parents` only when `this.slots[name]`
is truthy; otherwise do nothing. -/
def makeParent (o : Obj κ) (name : String) : Obj κ :=
  if (o.slotVal name).truthy then { o with parents := addParent o.parents name } else o

/-- Source `assignParentSlot` — `assignSlot` then `makeParent`. -/
def assignParentSlot (o : Obj κ) (name : String) (v : SlotVal) : Obj κ :=
  makeParent (assignSlot o name v) name

/-- The queue of parent objects: `[...this.parents].map(p => this.slots[p])`. -/
def parentQueue (o : Obj κ) : List SlotVal :=
  o.parents.map (fun p => o.slotVal p)

/-- Failure conditions `evaluate` can raise: the `MessageNotFound` throw of
the message chain, or a JS `TypeError` (method access on a non-object). -/
inductive EvalErr where
  | messageNotFound (name : String)
  | typeError
  deriving DecidableEq, Repr

/-- Result of running a piece of the evaluator: normal return (with the
possibly grown heap), a thrown error, or fuel exhaustion (an artifact of
the embedding, not a behaviour of the source). -/
inductive Outcome (κ : Type) where
  | ok (h : Heap κ) (v : SlotVal)
  | thrown (e : EvalErr)
  | outOfFuel
  deriving DecidableEq, Repr

/-- Interpreter for native-function codes: it may read the heap and the
receiver's handle and the `parameter` value, and returns the objects it
allocates (appended to the heap) together with its result value. -/
def NativeInterp (κ : Type) := κ → Heap κ → Nat → SlotVal → List (Obj κ) × SlotVal

mutual

/-- Source `evaluate` — priority order: primitive (return a fresh copy), native
function (call it with the object and the `parameter` slot value), message
chain (send the messages in order starting from a fresh copy, threading
each result), identity fallback. -/
def evaluate (interp : NativeInterp κ) : Nat → Heap κ → Nat → Outcome κ
  | 0, _, _ => .outOfFuel
  | f + 1, h, r =>
    match hget h r with
    | none => .thrown .typeError
    | some o =>
      match o.primitive with
      | some _ => .ok (h ++ [o.copy]) (.ref h.length)
      | none =>
        match o.primitiveFn with
        | some k =>
            let res := interp k h r (o.slotVal "parameter")
            .ok (h ++ res.1) res.2
        | none =>
          match o.messages with
          | [] => .ok h (.ref r)
          | m :: ms => runChain interp f (h ++ [o.copy]) (.ref h.length) (m :: ms) .vnull
  termination_by structural f _ _ => f

/-- The `for (const msg of this.messages)` loop of `evaluate`: send each
message to the current object, thread the (truthy) result, throw
`MessageNotFound` on a falsy result, return the last result. -/
def runChain (interp : NativeInterp κ) : Nat → Heap κ → SlotVal → List String → SlotVal → Outcome κ
  | 0, _, _, _, _ => .outOfFuel
  | f + 1, h, cur, msgs, result =>
    match msgs with
    | [] => .ok h result
    | m :: rest =>
      match cur with
      | .ref r =>
        match sendAMessage interp f h r m with
        | .ok h' v =>
            if v.truthy then runChain interp f h' v rest v
            else .thrown (.messageNotFound m)
        | .thrown e => .thrown e
        | .outOfFuel => .outOfFuel
      | _ => .thrown .typeError
  termination_by structural f _ _ _ _ => f

/-- Source `sendAMessage` — direct slot lookup (truthy test), then breadth-first
parent search. -/
def sendAMessage (interp : NativeInterp κ) : Nat → Heap κ → Nat → String → Outcome κ
  | 0, _, _, _ => .outOfFuel
  | f + 1, h, r, name =>
    match hget h r with
    | none => .thrown .typeError
    | some o =>
      if (o.slotVal name).truthy then
        match o.slotVal name with
        | .ref s => evaluate interp f h s
        | _ => .thrown .typeError
      else bfs interp f h name [] (parentQueue o)
  termination_by structural f _ _ _ => f

/-- The BFS while-loop of `sendAMessage`: dequeue, skip falsy or visited
entries, mark visited, return the evaluation of a matching slot, otherwise
enqueue the current object's parents at the back. -/
def bfs (interp : NativeInterp κ) : Nat → Heap κ → String → List SlotVal → List SlotVal → Outcome κ
  | 0, _, _, _, _ => .outOfFuel
  | f + 1, h, name, visited, queue =>
    match queue with
    | [] => .ok h .vnull
    | v :: rest =>
      if ¬ v.truthy ∨ v ∈ visited then bfs interp f h name visited rest
      else
        match v with
        | .ref c =>
          match hget h c with
          | none => .thrown .typeError
          | some o =>
            if (o.slotVal name).truthy then
              match o.slotVal name with
              | .ref s => evaluate interp f h s
              | _ => .thrown .typeError
            else bfs interp f h name (v :: visited) (rest ++ parentQueue o)
        | _ => .thrown .typeError
  termination_by structural f _ _ _ _ => f

/-- Source `sendAMessageWithParameters` — same traversal as `sendAMessage`, but a
match takes a copy of the slot's object, binds the parameter into the copy
and evaluates the copy. -/
def sendAMessageWithParameters (interp : NativeInterp κ) :
    Nat → Heap κ → Nat → String → SlotVal → Outcome κ
  | 0, _, _, _, _ => .outOfFuel
  | f + 1, h, r, name, param =>
    match hget h r with
    | none => .thrown .typeError
    | some o =>
      if (o.slotVal name).truthy then
        match o.slotVal name with
        | .ref s =>
          match hget h s with
          | none => .thrown .typeError
          | some so =>
              evaluate interp f (h ++ [assignSlot so.copy "parameter" param]) h.length
        | _ => .thrown .typeError
      else bfsP interp f h name param [] (parentQueue o)

/-- The BFS while-loop of `sendAMessageWithParameters`. -/
def bfsP (interp : NativeInterp κ) :
    Nat → Heap κ → String → SlotVal → List SlotVal → List SlotVal → Outcome κ
  | 0, _, _, _, _, _ => .outOfFuel
  | f + 1, h, name, param, visited, queue =>
    match queue with
    | [] => .ok h .vnull
    | v :: rest =>
      if ¬ v.truthy ∨ v ∈ visited then bfsP interp f h name param visited rest
      else
        match v with
        | .ref c =>
          match hget h c with
          | none => .thrown .typeError
          | some o =>
            if (o.slotVal name).truthy then
              match o.slotVal name with
              | .ref s =>
                match hget h s with
                | none => .thrown .typeError
                | some so =>
                    evaluate interp f (h ++ [assignSlot so.copy "parameter" param]) h.length
              | _ => .thrown .typeError
            else bfsP interp f h name param (v :: visited) (rest ++ parentQueue o)
        | _ => .thrown .typeError
  termination_by structural f _ _ _ _ _ => f

end

/-- In-place mutation of the object stored at a handle (the JS
`obj.field = ...` pattern, generic in the field update applied). -/
def hmodify (h : Heap κ) (r : Nat) (g : Obj κ → Obj κ) : Heap κ :=
  match hget h r with
  | some o => hset h r (g o)
  | none => h

/-- Heap extension: the second heap is the first with objects appended.
Every run of the evaluator only extends the heap — pre-existing objects are
never mutated. -/
def HExt (h h' : Heap κ) : Prop := ∃ e, h' = h ++ e

/-- The relation `SendsFrom interp f h c ms h' c'` — sending the messages `ms` in order,
starting at the object with handle `c`, each one dispatched to the handle
produced by the previous dispatch, succeeds throughout and ends in heap `h'`
at handle `c'`.  Fuel drops by one per message, mirroring the chain loop of
`evaluate`. -/
inductive SendsFrom (interp : NativeInterp κ) : Nat → Heap κ → Nat → List String → Heap κ → Nat → Prop where
  | nil (f : Nat) (h : Heap κ) (c : Nat) : SendsFrom interp f h c [] h c
  | cons {f : Nat} {h : Heap κ} {c : Nat} {m : String} {ms : List String}
      {h₁ : Heap κ} {c₁ : Nat} {h₂ : Heap κ} {c₂ : Nat}
      (hs : sendAMessage interp f h c m = .ok h₁ (.ref c₁))
      (hrest : SendsFrom interp f h₁ c₁ ms h₂ c₂) :
      SendsFrom interp (f + 1) h c (m :: ms) h₂ c₂

/-! ## Concrete graphs used in the witnesses -/
/-- A native-function interpreter with no codes in use (the witnesses below
never reach a native call). -/
def unitI : NativeInterp Unit := fun _ _ _ _ => ([], .vnull)

/-- Chain witness graph: `A` has slot `b ↦ B` and messages `[b, c]`;
`B` has slot `c ↦ C`; `C` is a plain object. -/
def wA : Obj Unit := ⟨[("b", .ref 1)], [], ["b", "c"], none, none⟩

def wB : Obj Unit := ⟨[("c", .ref 2)], [], [], none, none⟩

def wC : Obj Unit := ⟨[], [], [], none, none⟩

def wH : Heap Unit := [wA, wB, wC]

/-- Missing-message witness graph: `A` has slot `b ↦ B` and messages
`[b, q, zz]`; `B` is a plain object providing no `q`. -/
def vA : Obj Unit := ⟨[("b", .ref 1)], [], ["b", "q", "zz"], none, none⟩

def vB : Obj Unit := ⟨[], [], [], none, none⟩

def vH : Heap Unit := [vA, vB]

/-- Witness interpreter: the single native code reads the `parameter`
object's numeric primitive and allocates a fresh object boxing its
successor. -/
def incI : NativeInterp Unit := fun _ h _ p =>
  match p with
  | .ref q =>
    match hget h q with
    | some oq =>
      match oq.primitive with
      | some (.num n) => ([⟨[], [], [], some (.num (n + 1)), none⟩], .ref h.length)
      | _ => ([], .vnull)
    | none => ([], .vnull)
  | _ => ([], .vnull)

def incObj : Obj Unit := ⟨[("parameter", .ref 1)], [], [], none, some ()⟩

def numObj : Obj Unit := ⟨[], [], [], some (.num 5), none⟩

def incH : Heap Unit := [incObj, numObj]

/-- Primitive witness object carrying all four kinds at once: slots, a
parent marker, messages, a native function — and a primitive, which wins. -/
def primObj : Obj Unit := ⟨[("x", .ref 0)], ["x"], ["x", "y"], some (.str "I am A"), some ()⟩

/-- Falsy-slot witness graph: object 0 has the key `x` bound to the falsy
value `0`; object 1 also binds `x` to `false` and has object 0 as parent. -/
def fA : Obj Unit := ⟨[("x", .vnum 0)], [], [], none, none⟩

def fB : Obj Unit := ⟨[("x", .vbool false), ("par", .ref 0)], ["par"], [], none, none⟩

def fH : Heap Unit := [fA, fB]

/-- Copy witness graph: an object whose slot `sub` references another
object. -/
def gO : Obj Unit := ⟨[("sub", .ref 1)], [], [], none, none⟩

def gS : Obj Unit := ⟨[], [], [], some (.num 9), none⟩

def gH : Heap Unit := [gO, gS]

/-- Parameter-isolation witness graph: a receiver whose slot `m` references
a plain prototype object. -/
def pRecv : Obj Unit := ⟨[("m", .ref 1)], [], [], none, none⟩

def pProto : Obj Unit := ⟨[], [], [], none, none⟩

def pH : Heap Unit := [pRecv, pProto]

/-- A queue entry the BFS loop passes over without producing a result: a
falsy value, an already-visited value, or a reference to an object whose
`name` slot is not truthy (which gets visited and only enqueues its
parents). -/
def skippable (h : Heap κ) (name : String) (visited : List SlotVal) (v : SlotVal) : Prop :=
  v.truthy = false ∨ v ∈ visited
    ∨ ∃ c ob, v = SlotVal.ref c ∧ hget h c = some ob ∧ (ob.slotVal name).truthy = false

/-- Precedence witness graph: receiver 0 has parents `b` (object 1, no `x`,
but with a grandparent 4 that has `x ↦ 5`) and `c` (object 2, `x ↦ 3`),
declared in that order.  The direct parent's `x` (object 3) must win over
the earlier-declared parent's grandparent slot (object 5). -/
def cA : Obj Unit := ⟨[("b", .ref 1), ("c", .ref 2)], ["b", "c"], [], none, none⟩

def cB : Obj Unit := ⟨[("g", .ref 4)], ["g"], [], none, none⟩

def cC : Obj Unit := ⟨[("x", .ref 3)], [], [], none, none⟩

def cD : Obj Unit := ⟨[], [], [], none, none⟩

def cG : Obj Unit := ⟨[("x", .ref 5)], [], [], none, none⟩

def cGX : Obj Unit := ⟨[], [], [], some (.num 99), none⟩

def cH : Heap Unit := [cA, cB, cC, cD, cG, cGX]

/-- A slot value the BFS can safely process: a reference into the heap, or
a falsy value (which the loop skips). -/
def okRefVal (n : Nat) : SlotVal → Bool
  | .ref c => decide (c < n)
  | v => ! v.truthy

/-- All slot values of the object are safe for a heap of size `n`. -/
def Obj.wfVals (o : Obj κ) (n : Nat) : Bool :=
  o.slots.all (fun kv => okRefVal n kv.2)

/-- Every slot of every object references into the heap (or is falsy) —
true of any graph built through the mutation API. -/
def heapWF (h : Heap κ) : Bool :=
  h.all (fun o => o.wfVals h.length)

/-- No object of the heap provides a truthy slot named `name`. -/
def noSlotFor (h : Heap κ) (name : String) : Bool :=
  h.all (fun o => ! (o.slotVal name).truthy)

/-- Diamond-with-cycle witness graph: 0 has parents 1 and 2, both of which
have parent 3, and 3 has parent 0 again; no object provides `x`. -/
def dA : Obj Unit := ⟨[("b", .ref 1), ("c", .ref 2)], ["b", "c"], [], none, none⟩

def dB : Obj Unit := ⟨[("d", .ref 3)], ["d"], [], none, none⟩

def dC : Obj Unit := ⟨[("d", .ref 3)], ["d"], [], none, none⟩

def dD : Obj Unit := ⟨[("a", .ref 0)], ["a"], [], none, none⟩

def dH : Heap Unit := [dA, dB, dC, dD]

/-! ## Basic heap lemmas -/

theorem hget_lt_length {h : Heap κ} {r : Nat} {o : Obj κ} (hr : hget h r = some o) :
    r < h.length := by
  induction h generalizing r with
  | nil => simp [hget] at hr
  | cons a t ih =>
    cases r with
    | zero => simp
    | succ n => simpa using ih (by simpa [hget] using hr)

theorem hget_append_left {h : Heap κ} {r : Nat} (e : Heap κ) (hr : r < h.length) :
    hget (h ++ e) r = hget h r := by
  induction h generalizing r with
  | nil => simp at hr
  | cons a t ih =>
    cases r with
    | zero => simp [hget]
    | succ n => simpa [hget] using ih (by simpa using hr)

theorem hget_append_self (h : Heap κ) (o : Obj κ) (e : Heap κ) :
    hget (h ++ o :: e) h.length = some o := by
  induction h with
  | nil => simp [hget]
  | cons a t ih => simpa [hget] using ih

theorem hget_mem {h : Heap κ} {r : Nat} {o : Obj κ} (hr : hget h r = some o) : o ∈ h := by
  induction h generalizing r with
  | nil => simp [hget] at hr
  | cons a t ih =>
    cases r with
    | zero => simp [hget] at hr; simp [hr]
    | succ n => exact List.mem_cons_of_mem a (ih (by simpa [hget] using hr))

theorem hset_length (h : Heap κ) (r : Nat) (o : Obj κ) :
    (hset h r o).length = h.length := by
  induction h generalizing r with
  | nil => simp [hset]
  | cons a t ih =>
    cases r with
    | zero => simp [hset]
    | succ n => simp [hset, ih]

theorem hget_hset_self {h : Heap κ} {r : Nat} (o : Obj κ) (hr : r < h.length) :
    hget (hset h r o) r = some o := by
  induction h generalizing r with
  | nil => simp at hr
  | cons a t ih =>
    cases r with
    | zero => simp [hset, hget]
    | succ n => simpa [hset, hget] using ih (by simpa using hr)

theorem hget_hset_ne {h : Heap κ} {r r' : Nat} (o : Obj κ) (hne : r' ≠ r) :
    hget (hset h r o) r' = hget h r' := by
  induction h generalizing r r' with
  | nil => simp [hset]
  | cons a t ih =>
    cases r with
    | zero =>
      cases r' with
      | zero => exact absurd rfl hne
      | succ n => simp [hset, hget]
    | succ m =>
      cases r' with
      | zero => simp [hset, hget]
      | succ n => simpa [hset, hget] using ih (fun hc => hne (by simp [hc]))

theorem HExt.refl (h : Heap κ) : HExt h h := ⟨[], by simp⟩

theorem HExt.trans {h₁ h₂ h₃ : Heap κ} (a : HExt h₁ h₂) (b : HExt h₂ h₃) : HExt h₁ h₃ := by
  obtain ⟨e₁, rfl⟩ := a
  obtain ⟨e₂, rfl⟩ := b
  exact ⟨e₁ ++ e₂, by simp⟩

theorem HExt.append (h e : Heap κ) : HExt h (h ++ e) := ⟨e, rfl⟩

theorem hget_of_HExt {h h' : Heap κ} {r : Nat} {o : Obj κ}
    (he : HExt h h') (hr : hget h r = some o) : hget h' r = some o := by
  obtain ⟨e, rfl⟩ := he
  rw [hget_append_left e (hget_lt_length hr)]
  exact hr

theorem HExt.length_le {h h' : Heap κ} (he : HExt h h') : h.length ≤ h'.length := by
  obtain ⟨e, rfl⟩ := he
  simp

/-! ## The evaluator never mutates pre-existing objects

Every function of the engine only appends freshly allocated objects to the
heap: whenever a run returns normally, the final heap extends the initial
one.  This is the formal content of the copy discipline — the transient
copies receive all bindings, shared prototypes are left intact. -/

theorem extends_all (interp : NativeInterp κ) : ∀ f : Nat,
    (∀ h r h' v, evaluate interp f h r = .ok h' v → HExt h h') ∧
    (∀ h cur msgs res h' v, runChain interp f h cur msgs res = .ok h' v → HExt h h') ∧
    (∀ h r name h' v, sendAMessage interp f h r name = .ok h' v → HExt h h') ∧
    (∀ h name visited queue h' v, bfs interp f h name visited queue = .ok h' v → HExt h h') ∧
    (∀ h r name p h' v, sendAMessageWithParameters interp f h r name p = .ok h' v → HExt h h') ∧
    (∀ h name p visited queue h' v, bfsP interp f h name p visited queue = .ok h' v → HExt h h') := by
  intro f
  induction f with
  | zero =>
    refine ⟨?_, ?_, ?_, ?_, ?_, ?_⟩
    all_goals
      intros
      rename_i hE
      simp [evaluate, runChain, sendAMessage, bfs, sendAMessageWithParameters, bfsP] at hE
  | succ f ih =>
    obtain ⟨ihE, ihC, ihS, ihB, ihP, ihBP⟩ := ih
    refine ⟨?_, ?_, ?_, ?_, ?_, ?_⟩
    · -- evaluate
      intro h r h' v hE
      cases hg : hget h r with
      | none => simp [evaluate, hg] at hE
      | some o =>
        cases hp : o.primitive with
        | some p =>
          simp [evaluate, hg, hp] at hE
          exact hE.1 ▸ HExt.append h [o.copy]
        | none =>
          cases hk : o.primitiveFn with
          | some k =>
            simp [evaluate, hg, hp, hk] at hE
            exact hE.1 ▸ HExt.append h (interp k h r (o.slotVal "parameter")).1
          | none =>
            cases hm : o.messages with
            | nil =>
              simp [evaluate, hg, hp, hk, hm] at hE
              exact hE.1 ▸ HExt.refl h
            | cons m ms =>
              simp only [evaluate, hg, hp, hk, hm] at hE
              exact (HExt.append h [o.copy]).trans (ihC _ _ _ _ _ _ hE)
    · -- runChain
      intro h cur msgs res h' v hC
      cases msgs with
      | nil =>
        simp [runChain] at hC
        exact hC.1 ▸ HExt.refl h
      | cons m rest =>
        cases cur with
        | ref r =>
          cases hs : sendAMessage interp f h r m with
          | ok h₁ v₁ =>
            cases ht : v₁.truthy with
            | true =>
              simp only [runChain, hs, ht, if_true] at hC
              exact (ihS _ _ _ _ _ hs).trans (ihC _ _ _ _ _ _ hC)
            | false => simp [runChain, hs, ht] at hC
          | thrown e => simp [runChain, hs] at hC
          | outOfFuel => simp [runChain, hs] at hC
        | vnull => simp [runChain] at hC
        | vundefined => simp [runChain] at hC
        | vbool b => simp [runChain] at hC
        | vnum n => simp [runChain] at hC
        | vstr s => simp [runChain] at hC
    · -- sendAMessage
      intro h r name h' v hS
      cases hg : hget h r with
      | none => simp [sendAMessage, hg] at hS
      | some o =>
        simp only [sendAMessage, hg] at hS
        cases ht : (o.slotVal name).truthy with
        | true =>
          rw [ht, if_pos rfl] at hS
          cases hsv : o.slotVal name with
          | ref s => rw [hsv] at hS; exact ihE _ _ _ _ hS
          | vnull => rw [hsv] at ht; simp [SlotVal.truthy] at ht
          | vundefined => rw [hsv] at ht; simp [SlotVal.truthy] at ht
          | vbool b => rw [hsv] at hS; simp at hS
          | vnum n => rw [hsv] at hS; simp at hS
          | vstr t => rw [hsv] at hS; simp at hS
        | false =>
          rw [ht] at hS
          simp only [Bool.false_eq_true, if_false] at hS
          exact ihB _ _ _ _ _ _ hS
    · -- bfs
      intro h name visited queue h' v hB
      cases queue with
      | nil =>
        simp [bfs] at hB
        exact hB.1 ▸ HExt.refl h
      | cons w rest =>
        cases w with
        | ref c =>
          simp only [bfs] at hB
          by_cases hmem : SlotVal.ref c ∈ visited
          · rw [if_pos (Or.inr hmem)] at hB
            exact ihB _ _ _ _ _ _ hB
          · rw [if_neg (by simp [SlotVal.truthy, hmem])] at hB
            cases hg : hget h c with
            | none => simp [hg] at hB
            | some o =>
              simp only [hg] at hB
              cases ht : (o.slotVal name).truthy with
              | true =>
                rw [ht, if_pos rfl] at hB
                cases hsv : o.slotVal name with
                | ref s => rw [hsv] at hB; exact ihE _ _ _ _ hB
                | vnull => rw [hsv] at ht; simp [SlotVal.truthy] at ht
                | vundefined => rw [hsv] at ht; simp [SlotVal.truthy] at ht
                | vbool b => simp only [hsv] at hB; simp at hB
                | vnum n => simp only [hsv] at hB; simp at hB
                | vstr t => simp only [hsv] at hB; simp at hB
              | false =>
                rw [ht] at hB
                simp only [Bool.false_eq_true, if_false] at hB
                exact ihB _ _ _ _ _ _ hB
        | vnull =>
          simp only [bfs] at hB
          rw [if_pos (Or.inl (by simp [SlotVal.truthy]))] at hB
          exact ihB _ _ _ _ _ _ hB
        | vundefined =>
          simp only [bfs] at hB
          rw [if_pos (Or.inl (by simp [SlotVal.truthy]))] at hB
          exact ihB _ _ _ _ _ _ hB
        | vbool b =>
          simp only [bfs] at hB
          by_cases hcond : ¬ (SlotVal.vbool b).truthy = true ∨ SlotVal.vbool b ∈ visited
          · rw [if_pos hcond] at hB; exact ihB _ _ _ _ _ _ hB
          · rw [if_neg hcond] at hB; simp at hB
        | vnum n =>
          simp only [bfs] at hB
          by_cases hcond : ¬ (SlotVal.vnum n).truthy = true ∨ SlotVal.vnum n ∈ visited
          · rw [if_pos hcond] at hB; exact ihB _ _ _ _ _ _ hB
          · rw [if_neg hcond] at hB; simp at hB
        | vstr t =>
          simp only [bfs] at hB
          by_cases hcond : ¬ (SlotVal.vstr t).truthy = true ∨ SlotVal.vstr t ∈ visited
          · rw [if_pos hcond] at hB; exact ihB _ _ _ _ _ _ hB
          · rw [if_neg hcond] at hB; simp at hB
    · -- sendAMessageWithParameters
      intro h r name p h' v hP
      cases hg : hget h r with
      | none => simp [sendAMessageWithParameters, hg] at hP
      | some o =>
        simp only [sendAMessageWithParameters, hg] at hP
        cases ht : (o.slotVal name).truthy with
        | true =>
          rw [ht, if_pos rfl] at hP
          cases hsv : o.slotVal name with
          | ref s =>
            simp only [hsv] at hP
            cases hgs : hget h s with
            | none => simp [hgs] at hP
            | some so =>
              simp only [hgs] at hP
              exact (HExt.append h [assignSlot so.copy "parameter" p]).trans (ihE _ _ _ _ hP)
          | vnull => rw [hsv] at ht; simp [SlotVal.truthy] at ht
          | vundefined => rw [hsv] at ht; simp [SlotVal.truthy] at ht
          | vbool b => simp only [hsv] at hP; simp at hP
          | vnum n => simp only [hsv] at hP; simp at hP
          | vstr t => simp only [hsv] at hP; simp at hP
        | false =>
          rw [ht] at hP
          simp only [Bool.false_eq_true, if_false] at hP
          exact ihBP _ _ _ _ _ _ _ hP
    · -- bfsP
      intro h name p visited queue h' v hB
      cases queue with
      | nil =>
        simp [bfsP] at hB
        exact hB.1 ▸ HExt.refl h
      | cons w rest =>
        cases w with
        | ref c =>
          simp only [bfsP] at hB
          by_cases hmem : SlotVal.ref c ∈ visited
          · rw [if_pos (Or.inr hmem)] at hB
            exact ihBP _ _ _ _ _ _ _ hB
          · rw [if_neg (by simp [SlotVal.truthy, hmem])] at hB
            cases hg : hget h c with
            | none => simp [hg] at hB
            | some o =>
              simp only [hg] at hB
              cases ht : (o.slotVal name).truthy with
              | true =>
                rw [ht, if_pos rfl] at hB
                cases hsv : o.slotVal name with
                | ref s =>
                  simp only [hsv] at hB
                  cases hgs : hget h s with
                  | none => simp [hgs] at hB
                  | some so =>
                    simp only [hgs] at hB
                    exact (HExt.append h [assignSlot so.copy "parameter" p]).trans
                      (ihE _ _ _ _ hB)
                | vnull => rw [hsv] at ht; simp [SlotVal.truthy] at ht
                | vundefined => rw [hsv] at ht; simp [SlotVal.truthy] at ht
                | vbool b => simp only [hsv] at hB; simp at hB
                | vnum n => simp only [hsv] at hB; simp at hB
                | vstr t => simp only [hsv] at hB; simp at hB
              | false =>
                rw [ht] at hB
                simp only [Bool.false_eq_true, if_false] at hB
                exact ihBP _ _ _ _ _ _ _ hB
        | vnull =>
          simp only [bfsP] at hB
          rw [if_pos (Or.inl (by simp [SlotVal.truthy]))] at hB
          exact ihBP _ _ _ _ _ _ _ hB
        | vundefined =>
          simp only [bfsP] at hB
          rw [if_pos (Or.inl (by simp [SlotVal.truthy]))] at hB
          exact ihBP _ _ _ _ _ _ _ hB
        | vbool b =>
          simp only [bfsP] at hB
          by_cases hcond : ¬ (SlotVal.vbool b).truthy = true ∨ SlotVal.vbool b ∈ visited
          · rw [if_pos hcond] at hB; exact ihBP _ _ _ _ _ _ _ hB
          · rw [if_neg hcond] at hB; simp at hB
        | vnum n =>
          simp only [bfsP] at hB
          by_cases hcond : ¬ (SlotVal.vnum n).truthy = true ∨ SlotVal.vnum n ∈ visited
          · rw [if_pos hcond] at hB; exact ihBP _ _ _ _ _ _ _ hB
          · rw [if_neg hcond] at hB; simp at hB
        | vstr t =>
          simp only [bfsP] at hB
          by_cases hcond : ¬ (SlotVal.vstr t).truthy = true ∨ SlotVal.vstr t ∈ visited
          · rw [if_pos hcond] at hB; exact ihBP _ _ _ _ _ _ _ hB
          · rw [if_neg hcond] at hB; simp at hB

/-! ## Message-chain threading -/

/-- The result parameter of the chain loop is irrelevant while messages
remain: it is overwritten before it can be returned. -/
theorem runChain_res_ne_nil (interp : NativeInterp κ) {msgs : List String} (hne : msgs ≠ [])
    (f : Nat) (h : Heap κ) (cur : SlotVal) (a b : SlotVal) :
    runChain interp f h cur msgs a = runChain interp f h cur msgs b := by
  cases msgs with
  | nil => exact absurd rfl hne
  | cons m rest =>
    cases f with
    | zero => rfl
    | succ f => rfl

/-- Running the chain loop over `ms₁ ++ ms₂` threads through `ms₁` exactly
as `SendsFrom` describes and continues with `ms₂` from the previous
dispatch's result — each message is sent to the result of the previous
message, never to the original receiver. -/
theorem runChain_sendsFrom {interp : NativeInterp κ} {f : Nat} {h : Heap κ} {c : Nat}
    {ms₁ : List String} {h₁ : Heap κ} {c₁ : Nat}
    (hS : SendsFrom interp f h c ms₁ h₁ c₁) (ms₂ : List String) (hne : ms₂ ≠ [])
    (res : SlotVal) :
    runChain interp f h (.ref c) (ms₁ ++ ms₂) res
      = runChain interp (f - ms₁.length) h₁ (.ref c₁) ms₂ res := by
  induction hS with
  | nil f h c => simp
  | cons hs hrest ih =>
    rename_i f h c m ms hm₁ cm₁ h₂ c₂
    calc runChain interp (f + 1) h (.ref c) ((m :: ms) ++ ms₂) res
        = runChain interp f hm₁ (.ref cm₁) (ms ++ ms₂) (.ref cm₁) := by
          simp [runChain, hs, SlotVal.truthy]
      _ = runChain interp f hm₁ (.ref cm₁) (ms ++ ms₂) res :=
          runChain_res_ne_nil interp (by simp [hne]) _ _ _ _ _
      _ = runChain interp (f - ms.length) h₂ (.ref c₂) ms₂ res := ih
      _ = runChain interp ((f + 1) - (m :: ms).length) h₂ (.ref c₂) ms₂ res := by
          simp [Nat.succ_sub_succ]

/-- Inverting a successful run of the chain loop: it decomposes into
threaded sends (`SendsFrom`) over all messages but the last, followed by
the dispatch of the last message, whose (truthy) result is the value
returned. -/
theorem runChain_ok_inv (interp : NativeInterp κ) :
    ∀ (ms : List String) (f : Nat) (h : Heap κ) (c : Nat) (res : SlotVal)
      (h' : Heap κ) (v : SlotVal),
      runChain interp f h (.ref c) ms res = .ok h' v → ms ≠ [] →
      ∃ ms₁ m h₁ c₁, ms = ms₁ ++ [m]
        ∧ SendsFrom interp f h c ms₁ h₁ c₁
        ∧ sendAMessage interp (f - (ms₁.length + 1)) h₁ c₁ m = .ok h' v
        ∧ v.truthy = true := by
  intro ms
  induction ms with
  | nil => intro f h c res h' v _ hne; exact absurd rfl hne
  | cons m rest ih =>
    intro f h c res h' v hC _
    cases f with
    | zero => simp [runChain] at hC
    | succ f' =>
      cases hs : sendAMessage interp f' h c m with
      | ok h₁ v₁ =>
        simp only [runChain, hs] at hC
        cases htv : v₁.truthy with
        | true =>
          rw [htv, if_pos rfl] at hC
          cases rest with
          | nil =>
            cases f' with
            | zero => simp [runChain] at hC
            | succ f'' =>
              simp only [runChain] at hC
              obtain ⟨rfl, rfl⟩ : h₁ = h' ∧ v₁ = v := by
                cases hC
                exact ⟨rfl, rfl⟩
              exact ⟨[], m, h, c, rfl, SendsFrom.nil _ _ _, by simpa using hs, htv⟩
          | cons m₂ rest' =>
            cases v₁ with
            | ref c₁ =>
              obtain ⟨ms₁', m', hm₁, cm₁, heq, hSF, hlast, htr⟩ :=
                ih f' h₁ c₁ (.ref c₁) h' v hC (by simp)
              refine ⟨m :: ms₁', m', hm₁, cm₁, by simp [heq], SendsFrom.cons hs hSF, ?_, htr⟩
              have hfe : (f' + 1) - ((m :: ms₁').length + 1) = f' - (ms₁'.length + 1) := by
                simp [List.length_cons]
              rw [hfe]
              exact hlast
            | vnull => cases f' <;> simp [runChain] at hC
            | vundefined => cases f' <;> simp [runChain] at hC
            | vbool b => cases f' <;> simp [runChain] at hC
            | vnum n => cases f' <;> simp [runChain] at hC
            | vstr t => cases f' <;> simp [runChain] at hC
        | false =>
          rw [htv] at hC
          simp at hC
      | thrown e => simp [runChain, hs] at hC
      | outOfFuel => simp [runChain, hs] at hC

/-- C1: for an object with no primitive and no native function but a
non-empty message list, a successful evaluation is exactly a threaded chain
run: a fresh copy of the object is allocated (a handle distinct from the
receiver's), the first message is sent to that copy, every later message to
the handle returned by the previous dispatch (`SendsFrom`), and the value
returned is the result of the last message's dispatch. -/
theorem C1_message_chain_threads (interp : NativeInterp κ) {h : Heap κ} {r : Nat} {o : Obj κ}
    {F : Nat} (h' : Heap κ) (v : SlotVal)
    (hr : hget h r = some o) (hp : o.primitive = none) (hf : o.primitiveFn = none)
    (hne : o.messages ≠ []) :
    (evaluate interp (F + 1) h r = .ok h' v ↔
      v.truthy = true ∧ ∃ ms₁ m h₁ c₁, o.messages = ms₁ ++ [m]
        ∧ SendsFrom interp F (h ++ [o.copy]) h.length ms₁ h₁ c₁
        ∧ sendAMessage interp (F - (ms₁.length + 1)) h₁ c₁ m = .ok h' v)
    ∧ r ≠ h.length := by
  refine ⟨?_, Nat.ne_of_lt (hget_lt_length hr)⟩
  obtain ⟨a, as, hcons⟩ : ∃ a as, o.messages = a :: as := by
    cases hmm : o.messages with
    | nil => exact absurd hmm hne
    | cons a as => exact ⟨a, as, rfl⟩
  have h0 : evaluate interp (F + 1) h r
      = runChain interp F (h ++ [o.copy]) (.ref h.length) o.messages .vnull := by
    simp only [evaluate, hr, hp, hf, hcons]
  rw [h0]
  constructor
  · intro hok
    obtain ⟨ms₁, m, h₁, c₁, hmeq, hSF, hlast, htr⟩ :=
      runChain_ok_inv interp o.messages F (h ++ [o.copy]) h.length .vnull h' v hok hne
    exact ⟨htr, ms₁, m, h₁, c₁, hmeq, hSF, hlast⟩
  · rintro ⟨htr, ms₁, m, h₁, c₁, hmeq, hSF, hlast⟩
    have hF2 : ms₁.length + 2 ≤ F := by
      by_contra hlt
      push_neg at hlt
      have hz : F - (ms₁.length + 1) = 0 := by omega
      rw [hz] at hlast
      simp [sendAMessage] at hlast
    rw [hmeq, runChain_sendsFrom hSF [m] (by simp) .vnull]
    have hfe : F - ms₁.length = (F - (ms₁.length + 1)) + 1 := by omega
    rw [hfe]
    obtain ⟨Z, hZ⟩ : ∃ Z, F - (ms₁.length + 1) = Z + 1 := ⟨F - (ms₁.length + 1) - 1, by omega⟩
    rw [hZ] at hlast ⊢
    simp [runChain, hlast, htr]

/-- C2: if, at any point of the chain, the dispatch of message `m` returns a
falsy result (in particular `null`, the no-match sentinel), `evaluate`
throws `MessageNotFound m` — no result object is produced and the messages
after `m` are never processed. -/
theorem C2_missing_message_aborts (interp : NativeInterp κ) {h : Heap κ} {r : Nat} {o : Obj κ}
    {ms₁ : List String} {m : String} {ms₂ : List String} {h₁ : Heap κ} {c₁ : Nat}
    {h₂ : Heap κ} {v : SlotVal} {g : Nat}
    (hr : hget h r = some o) (hp : o.primitive = none) (hf : o.primitiveFn = none)
    (hm : o.messages = ms₁ ++ m :: ms₂)
    (hS : SendsFrom interp (ms₁.length + g + 1) (h ++ [o.copy]) h.length ms₁ h₁ c₁)
    (hmiss : sendAMessage interp g h₁ c₁ m = .ok h₂ v) (hv : v.truthy = false) :
    evaluate interp (ms₁.length + g + 1 + 1) h r = .thrown (.messageNotFound m) := by
  obtain ⟨a, as, hcons⟩ : ∃ a as, ms₁ ++ m :: ms₂ = a :: as := by
    cases ms₁ with
    | nil => exact ⟨m, ms₂, rfl⟩
    | cons x xs => exact ⟨x, xs ++ m :: ms₂, rfl⟩
  have h0 : evaluate interp (ms₁.length + g + 1 + 1) h r
      = runChain interp (ms₁.length + g + 1) (h ++ [o.copy]) (.ref h.length) (a :: as) .vnull := by
    simp only [evaluate, hr, hp, hf, hm, hcons]
  rw [h0, ← hcons, runChain_sendsFrom hS (m :: ms₂) (by simp) .vnull]
  have hfuel : ms₁.length + g + 1 - ms₁.length = g + 1 := by omega
  rw [hfuel]
  simp [runChain, hmiss, hv]

theorem C1_message_chain_threads_witness :
    evaluate unitI 5 wH 0 = .ok (wH ++ [Obj.copy wA]) (.ref 2) ∧ (0 : Nat) ≠ 3 := by
  have hc := @C1_message_chain_threads Unit unitI wH 0 wA 4
    (wH ++ [Obj.copy wA]) (.ref 2) rfl rfl rfl (by decide)
  refine ⟨?_, hc.2⟩
  refine hc.1.mpr ⟨by decide, ["b"], "c", wH ++ [Obj.copy wA], 1, rfl, ?_, by decide⟩
  exact SendsFrom.cons (by decide) (SendsFrom.nil _ _ _)

theorem C2_missing_message_aborts_witness :
    evaluate unitI 5 vH 0 = .thrown (.messageNotFound "q") := by
  have hS : SendsFrom unitI 4 (vH ++ [vA.copy]) 2 ["b"] (vH ++ [vA.copy]) 1 :=
    SendsFrom.cons (by decide) (SendsFrom.nil _ _ _)
  have hc := @C2_missing_message_aborts Unit unitI vH 0 vA ["b"] "q" ["zz"]
    (vH ++ [vA.copy]) 1 (vH ++ [vA.copy]) .vnull 2
    rfl rfl rfl rfl hS (by decide) (by decide)
  simpa using hc

/-! ## Native-function invocation, primitive priority, mutation API -/

/-- C4: when an object has no primitive but a native function, `evaluate`
calls the function with the object itself (its handle) and the value
currently bound to the `"parameter"` slot (`undefined` when the slot is not
set), and returns exactly what the function produces — the function's
allocations appended, its result value passed through untouched. -/
theorem C4_nativeFn_invocation (interp : NativeInterp κ) {h : Heap κ} {r : Nat} {o : Obj κ}
    {k : κ} (f : Nat)
    (hr : hget h r = some o) (hp : o.primitive = none) (hk : o.primitiveFn = some k) :
    evaluate interp (f + 1) h r
      = .ok (h ++ (interp k h r (o.slotVal "parameter")).1)
            (interp k h r (o.slotVal "parameter")).2 := by
  simp only [evaluate, hr, hp, hk]

theorem C4_nativeFn_invocation_witness :
    evaluate incI 1 incH 0 = .ok (incH ++ [⟨[], [], [], some (.num 6), none⟩]) (.ref 2) := by
  have hc := @C4_nativeFn_invocation Unit incI incH 0 incObj () 0 rfl rfl rfl
  rw [hc]
  decide

/-- C8: an object with a present primitive value `v` evaluates — regardless
of its messages, native function, slots and parents — to a freshly
allocated copy: a handle distinct from the receiver's, whose object carries
`primitive = v`. -/
theorem C8_primitive_priority (interp : NativeInterp κ) {h : Heap κ} {r : Nat} {o : Obj κ}
    {p : Prim} (f : Nat) (hr : hget h r = some o) (hp : o.primitive = some p) :
    evaluate interp (f + 1) h r = .ok (h ++ [o.copy]) (.ref h.length)
      ∧ r ≠ h.length
      ∧ hget (h ++ [o.copy]) h.length = some o.copy
      ∧ (Obj.copy o).primitive = some p := by
  refine ⟨by simp only [evaluate, hr, hp], Nat.ne_of_lt (hget_lt_length hr), ?_, ?_⟩
  · exact hget_append_self h o.copy []
  · simpa [Obj.copy] using hp

theorem C8_primitive_priority_witness :
    evaluate unitI 1 [primObj] 0 = .ok [primObj, Obj.copy primObj] (.ref 1)
      ∧ (0 : Nat) ≠ 1
      ∧ (Obj.copy primObj).primitive = some (.str "I am A") := by
  have hc := @C8_primitive_priority Unit unitI [primObj] 0 primObj (.str "I am A") 0 rfl rfl
  exact ⟨hc.1, hc.2.1, hc.2.2.2⟩

/-- Writing a key always stores the given value under that key. -/
theorem lookupSlot_setKey_self (l : List (String × SlotVal)) (name : String) (v : SlotVal) :
    lookupSlot (setKey l name v) name = some v := by
  induction l with
  | nil => simp [setKey, lookupSlot]
  | cons a t ih =>
    obtain ⟨k, w⟩ := a
    by_cases hk : k = name
    · simp [setKey, hk, lookupSlot]
    · simp [setKey, hk, lookupSlot, ih]

/-- C9: `makeParent` adds the parent marker only if a slot with that name
exists — when the slot is absent the call returns the object entirely
unchanged (and being a total function, it signals no error). -/
theorem C9_makeParent_guard (o : Obj κ) (name : String) :
    (lookupSlot o.slots name = none → makeParent o name = o)
    ∧ ((makeParent o name).parents ≠ o.parents → (lookupSlot o.slots name).isSome = true) := by
  constructor
  · intro hnone
    simp [makeParent, Obj.slotVal, hnone, SlotVal.truthy]
  · intro hne
    by_cases hs : (o.slotVal name).truthy
    · cases hl : lookupSlot o.slots name with
      | some v => simp
      | none =>
        rw [Obj.slotVal, hl] at hs
        simp [SlotVal.truthy] at hs
    · simp [makeParent, hs] at hne

theorem C9_makeParent_guard_witness :
    makeParent wC "p" = wC
      ∧ (lookupSlot wB.slots "c").isSome = true := by
  exact ⟨(C9_makeParent_guard wC "p").1 rfl, (C9_makeParent_guard wB "c").2 (by decide)⟩

/-- C10: a slot whose value is falsy is treated as absent even though its
key is in the mapping (which `assignSlot` permits): `makeParent` does not
add the marker, direct dispatch falls through and returns the `NotFound`
sentinel, and the breadth-first ancestor search skips over such a slot on a
parent as well. -/
theorem C10_falsy_slot_is_absent (interp : NativeInterp κ) {h : Heap κ} {r q : Nat}
    {o oq : Obj κ} {name : String} {w w' : SlotVal} (f : Nat)
    (hr : hget h r = some o) (hl : lookupSlot o.slots name = some w)
    (hw : w.truthy = false) (hpar : o.parents = [])
    (hq : hget h q = some oq) (hql : lookupSlot oq.slots name = some w')
    (hw' : w'.truthy = false) (hqpar : parentQueue oq = [.ref r]) :
    (∀ (o' : Obj κ) (v : SlotVal), lookupSlot (assignSlot o' name v).slots name = some v)
    ∧ makeParent o name = o
    ∧ sendAMessage interp (f + 2) h r name = .ok h .vnull
    ∧ sendAMessage interp (f + 3) h q name = .ok h .vnull := by
  have hsv : o.slotVal name = w := by rw [Obj.slotVal, hl]
  have hsq : oq.slotVal name = w' := by rw [Obj.slotVal, hql]
  refine ⟨?_, ?_, ?_, ?_⟩
  · intro o' v
    simp [assignSlot, lookupSlot_setKey_self]
  · simp [makeParent, hsv, hw]
  · have h1 : sendAMessage interp (f + 1 + 1) h r name
        = bfs interp (f + 1) h name [] (parentQueue o) := by
      simp only [sendAMessage, hr, hsv, hw, Bool.false_eq_true, if_false]
    rw [show f + 2 = f + 1 + 1 from rfl, h1, parentQueue, hpar]
    simp [bfs]
  · have h1 : sendAMessage interp (f + 2 + 1) h q name
        = bfs interp (f + 2) h name [] (parentQueue oq) := by
      simp only [sendAMessage, hq, hsq, hw', Bool.false_eq_true, if_false]
    rw [show f + 3 = f + 2 + 1 from rfl, h1, hqpar]
    have h2 : bfs interp (f + 1 + 1) h name [] [.ref r]
        = bfs interp (f + 1) h name [.ref r] ([] ++ parentQueue o) := by
      simp only [bfs]
      rw [if_neg (by simp [SlotVal.truthy])]
      simp only [hr, hsv, hw, Bool.false_eq_true, if_false]
    rw [show f + 2 = f + 1 + 1 from rfl, h2, parentQueue, hpar]
    simp [bfs]

theorem C10_falsy_slot_is_absent_witness :
    lookupSlot (assignSlot fB "x" (.vstr "")).slots "x" = some (.vstr "")
      ∧ makeParent fA "x" = fA
      ∧ sendAMessage unitI 2 fH 0 "x" = .ok fH .vnull
      ∧ sendAMessage unitI 3 fH 1 "x" = .ok fH .vnull := by
  have hc := @C10_falsy_slot_is_absent Unit unitI fH 0 1 fA fB "x" (.vnum 0) (.vbool false) 0
    rfl rfl rfl rfl rfl rfl rfl (by decide)
  exact ⟨hc.1 fB (.vstr ""), hc.2.1, hc.2.2.1, hc.2.2.2⟩

/-! ## Copy independence and parameter isolation -/

/-- C6: copying allocates a distinct handle whose record has identical
slots, parents, messages, primitive and native function; an arbitrary
in-place mutation of the copy leaves the source object untouched and vice
versa; and a slot referencing a sub-object holds the very same handle in
the copy, so the sub-object stays shared. -/
theorem C6_copy_independence {h : Heap κ} {r : Nat} {o : Obj κ} (hr : hget h r = some o) :
    hget (h ++ [o.copy]) h.length = some o.copy
    ∧ h.length ≠ r
    ∧ (Obj.copy o).slots = o.slots ∧ (Obj.copy o).parents = o.parents
    ∧ (Obj.copy o).messages = o.messages ∧ (Obj.copy o).primitive = o.primitive
    ∧ (Obj.copy o).primitiveFn = o.primitiveFn
    ∧ (∀ g : Obj κ → Obj κ,
        hget (hmodify (h ++ [o.copy]) h.length g) r = some o
        ∧ hget (hmodify (h ++ [o.copy]) r g) h.length = some o.copy)
    ∧ (∀ n s, lookupSlot o.slots n = some (.ref s) →
        lookupSlot (Obj.copy o).slots n = some (.ref s)) := by
  have hlt : r < h.length := hget_lt_length hr
  have hne : h.length ≠ r := fun hab => Nat.lt_irrefl r (hab ▸ hlt)
  have hcGet : hget (h ++ [o.copy]) h.length = some o.copy := hget_append_self h o.copy []
  have hrGet : hget (h ++ [o.copy]) r = some o := by
    rw [hget_append_left [o.copy] hlt]; exact hr
  refine ⟨hcGet, hne, rfl, rfl, rfl, rfl, rfl, ?_, ?_⟩
  · intro g
    constructor
    · rw [hmodify, hcGet, hget_hset_ne _ (fun hab => hne hab.symm)]
      exact hrGet
    · rw [hmodify, hrGet, hget_hset_ne _ hne]
      exact hcGet
  · intro n sub hsub
    exact hsub

theorem C6_copy_independence_witness :
    hget (gH ++ [Obj.copy gO]) 2 = some (Obj.copy gO)
      ∧ (2 : Nat) ≠ 0
      ∧ hget (hmodify (gH ++ [Obj.copy gO]) 2 (fun x => assignSlot x "extra" .vnull)) 0 = some gO
      ∧ hget (hmodify (gH ++ [Obj.copy gO]) 0 (fun x => assignSlot x "extra" .vnull)) 2
          = some (Obj.copy gO)
      ∧ lookupSlot (Obj.copy gO).slots "sub" = some (.ref 1) := by
  have hc := @C6_copy_independence Unit gH 0 gO rfl
  have hg := hc.2.2.2.2.2.2.2.1 (fun x => assignSlot x "extra" .vnull)
  exact ⟨hc.1, hc.2.1, hg.1, hg.2, hc.2.2.2.2.2.2.2.2 "sub" 1 rfl⟩

/-- C5: `sendAMessageWithParameters` never mutates pre-existing objects —
a normal return only extends the heap.  On a direct match it allocates a
fresh copy of the slot's object (a handle distinct from the prototype's),
binds the parameter into that copy alone, and evaluates the copy; after the
call the prototype behind the slot and the receiver are bit-for-bit
unchanged, so a repeated call with a different parameter binds into a fresh
copy of the very same prototype. -/
theorem C5_parameter_isolation (interp : NativeInterp κ) :
    (∀ f (h : Heap κ) r name p h' v,
        sendAMessageWithParameters interp f h r name p = .ok h' v → HExt h h')
    ∧ (∀ f (h : Heap κ) r name p (o so : Obj κ) s,
        hget h r = some o → Obj.slotVal o name = .ref s → hget h s = some so →
        sendAMessageWithParameters interp (f + 1) h r name p
          = evaluate interp f (h ++ [assignSlot so.copy "parameter" p]) h.length
        ∧ s ≠ h.length
        ∧ (∀ h' v, sendAMessageWithParameters interp (f + 1) h r name p = .ok h' v →
            hget h' s = some so ∧ hget h' r = some o)
        ∧ (∀ h' v p₂ f₂, sendAMessageWithParameters interp (f + 1) h r name p = .ok h' v →
            sendAMessageWithParameters interp (f₂ + 1) h' r name p₂
              = evaluate interp f₂ (h' ++ [assignSlot so.copy "parameter" p₂]) h'.length)) := by
  constructor
  · intro f h r name p h' v hP
    exact (extends_all interp f).2.2.2.2.1 h r name p h' v hP
  · intro f h r name p o so s hr hsv hgs
    have heq : ∀ f' (hh : Heap κ),
        hget hh r = some o → hget hh s = some so →
        sendAMessageWithParameters interp (f' + 1) hh r name p
          = evaluate interp f' (hh ++ [assignSlot so.copy "parameter" p]) hh.length := by
      intro f' hh hhr hhs
      simp only [sendAMessageWithParameters, hhr, hsv, SlotVal.truthy, hhs, if_true]
    refine ⟨heq f h hr hgs, Nat.ne_of_lt (hget_lt_length hgs), ?_, ?_⟩
    · intro h' v hok
      have hext : HExt h h' := (extends_all interp (f + 1)).2.2.2.2.1 h r name p h' v hok
      exact ⟨hget_of_HExt hext hgs, hget_of_HExt hext hr⟩
    · intro h' v p₂ f₂ hok
      have hext : HExt h h' := (extends_all interp (f + 1)).2.2.2.2.1 h r name p h' v hok
      have hhr := hget_of_HExt hext hr
      have hhs := hget_of_HExt hext hgs
      simp only [sendAMessageWithParameters, hhr, hsv, SlotVal.truthy, hhs, if_true]

theorem C5_parameter_isolation_witness :
    sendAMessageWithParameters unitI 2 pH 0 "m" (.vnum 7)
        = evaluate unitI 1 (pH ++ [assignSlot (Obj.copy pProto) "parameter" (.vnum 7)]) 2
      ∧ (1 : Nat) ≠ 2
      ∧ hget (pH ++ [assignSlot (Obj.copy pProto) "parameter" (.vnum 7)]) 1 = some pProto := by
  have hc := (C5_parameter_isolation unitI).2 1 pH 0 "m" (.vnum 7) pRecv pProto 1 rfl rfl rfl
  refine ⟨hc.1, hc.2.1, ?_⟩
  exact (hc.2.2.1 (pH ++ [assignSlot (Obj.copy pProto) "parameter" (.vnum 7)]) (.ref 2)
    (by decide)).1

/-! ## Breadth-first precedence -/

theorem skippable_mono {h : Heap κ} {name : String} {visited : List SlotVal} {v w : SlotVal}
    (hs : skippable h name visited v) : skippable h name (w :: visited) v := by
  rcases hs with hs | hs | hs
  · exact Or.inl hs
  · exact Or.inr (Or.inl (List.mem_cons_of_mem w hs))
  · exact Or.inr (Or.inr hs)

/-- The first matching entry of the queue wins: entries before it are
passed over (their parents, like everything behind the match, are appended
to the back of the queue and never reached), and the BFS returns the
evaluation of the matching object's slot. -/
theorem bfs_first_match (interp : NativeInterp κ) (h : Heap κ) (name : String)
    {p : Nat} {po : Obj κ} {s : Nat}
    (hp : hget h p = some po) (hmatch : po.slotVal name = .ref s) :
    ∀ (q1 visited q2 : List SlotVal) (f : Nat),
      (∀ v ∈ q1, skippable h name visited v) →
      SlotVal.ref p ∉ q1 → SlotVal.ref p ∉ visited →
      bfs interp (q1.length + (f + 1)) h name visited (q1 ++ .ref p :: q2)
        = evaluate interp f h s := by
  intro q1
  induction q1 with
  | nil =>
    intro visited q2 f hskip hpq hpv
    simp only [List.nil_append, List.length_nil, Nat.zero_add]
    simp only [bfs]
    rw [if_neg (by simp [SlotVal.truthy, hpv])]
    simp only [hp, hmatch, SlotVal.truthy, if_true]
  | cons a q1' ih =>
    intro visited q2 f hskip hpq hpv
    have hfe : (a :: q1').length + (f + 1) = (q1'.length + (f + 1)) + 1 := by
      simp [List.length_cons]
      omega
    rw [hfe, List.cons_append]
    by_cases hcond : ¬ a.truthy = true ∨ a ∈ visited
    · have hstep : bfs interp ((q1'.length + (f + 1)) + 1) h name visited
          (a :: (q1' ++ .ref p :: q2)) = bfs interp (q1'.length + (f + 1)) h name visited
          (q1' ++ .ref p :: q2) := by
        simp only [bfs]
        rw [if_pos hcond]
      rw [hstep]
      exact ih visited q2 f (fun v hv => hskip v (List.mem_cons_of_mem a hv))
        (fun hc => hpq (List.mem_cons_of_mem a hc)) hpv
    · push_neg at hcond
      obtain ⟨htr, hnv⟩ := hcond
      obtain ⟨c, ob, rfl, hgc, hnmc⟩ :
          ∃ c ob, a = SlotVal.ref c ∧ hget h c = some ob ∧ (ob.slotVal name).truthy = false := by
        rcases hskip a (List.mem_cons_self a q1') with hs | hs | hs
        · rw [htr] at hs; cases hs
        · exact absurd hs hnv
        · exact hs
      have hstep : bfs interp ((q1'.length + (f + 1)) + 1) h name visited
          (SlotVal.ref c :: (q1' ++ .ref p :: q2))
          = bfs interp (q1'.length + (f + 1)) h name (SlotVal.ref c :: visited)
              ((q1' ++ .ref p :: q2) ++ parentQueue ob) := by
        simp only [bfs]
        rw [if_neg (by simp [SlotVal.truthy, hnv])]
        simp only [hgc, hnmc, Bool.false_eq_true, if_false]
      rw [hstep]
      have hre : (q1' ++ .ref p :: q2) ++ parentQueue ob
          = q1' ++ .ref p :: (q2 ++ parentQueue ob) := by
        simp [List.append_assoc]
      rw [hre]
      have hpne : SlotVal.ref p ≠ SlotVal.ref c :=
        fun hc => hpq (hc ▸ List.mem_cons_self _ q1')
      exact ih (SlotVal.ref c :: visited) (q2 ++ parentQueue ob) f
        (fun v hv => skippable_mono (hskip v (List.mem_cons_of_mem _ hv)))
        (fun hc => hpq (List.mem_cons_of_mem _ hc))
        (fun hc => by
          rcases List.mem_cons.mp hc with hc | hc
          · exact hpne hc
          · exact hpv hc)

/-- C3: when the direct lookup misses, the parents are enqueued in
declaration order; if the parents before `p` in that order are all
passed over (falsy, or providing no truthy `name` slot) and `p`'s object
provides one, the dispatch returns the evaluation of `p`'s slot — whatever
the later sibling parents (`q2`) hold and whatever grandparents would be
appended behind them. -/
theorem C3_bfs_precedence (interp : NativeInterp κ) {h : Heap κ} {r : Nat} {o : Obj κ}
    {name : String} {q1 q2 : List SlotVal} {p : Nat} {po : Obj κ} {s : Nat} (f : Nat)
    (hr : hget h r = some o) (hmiss : (o.slotVal name).truthy = false)
    (hqueue : parentQueue o = q1 ++ .ref p :: q2)
    (hskip : ∀ v ∈ q1, skippable h name [] v)
    (hpq : SlotVal.ref p ∉ q1)
    (hp : hget h p = some po) (hmatch : po.slotVal name = .ref s) :
    sendAMessage interp ((q1.length + (f + 1)) + 1) h r name = evaluate interp f h s := by
  have h1 : sendAMessage interp ((q1.length + (f + 1)) + 1) h r name
      = bfs interp (q1.length + (f + 1)) h name [] (parentQueue o) := by
    simp only [sendAMessage, hr, hmiss, Bool.false_eq_true, if_false]
  rw [h1, hqueue]
  exact bfs_first_match interp h name hp hmatch q1 [] q2 f hskip hpq (by simp)

theorem C3_bfs_precedence_witness :
    sendAMessage unitI 4 cH 0 "x" = evaluate unitI 1 cH 3
      ∧ sendAMessage unitI 4 cH 0 "x" = .ok cH (.ref 3) := by
  have hskip : ∀ v ∈ [SlotVal.ref 1], skippable cH "x" [] v := by
    intro v hv
    have hv1 : v = SlotVal.ref 1 := by simpa using hv
    exact Or.inr (Or.inr ⟨1, cB, hv1, rfl, rfl⟩)
  have hc := @C3_bfs_precedence Unit unitI cH 0 cA "x" [.ref 1] [] 2 cC 3 1
    rfl rfl rfl hskip (by decide) rfl rfl
  exact ⟨hc, hc.trans (by decide)⟩

/-! ## Termination on cyclic and diamond-shaped parent graphs -/

theorem lookupSlot_mem {l : List (String × SlotVal)} {name : String} {v : SlotVal}
    (hl : lookupSlot l name = some v) : ∃ k, (k, v) ∈ l := by
  induction l with
  | nil => simp [lookupSlot] at hl
  | cons a t ih =>
    obtain ⟨k, w⟩ := a
    by_cases hk : k = name
    · rw [lookupSlot, if_pos hk] at hl
      exact ⟨k, by simp [Option.some_inj.mp hl]⟩
    · rw [lookupSlot, if_neg hk] at hl
      obtain ⟨k', hk'⟩ := ih hl
      exact ⟨k', List.mem_cons_of_mem _ hk'⟩

theorem slotVal_okRef {o : Obj κ} {n : Nat} (hwf : o.wfVals n = true) (name : String) :
    okRefVal n (o.slotVal name) = true := by
  rw [Obj.slotVal]
  cases hl : lookupSlot o.slots name with
  | none => simp [okRefVal, SlotVal.truthy]
  | some v =>
    obtain ⟨k, hk⟩ := lookupSlot_mem hl
    exact (List.all_eq_true.mp hwf (k, v) hk)

theorem parentQueue_okRef {o : Obj κ} {n : Nat} (hwf : o.wfVals n = true) :
    ∀ v ∈ parentQueue o, okRefVal n v = true := by
  intro v hv
  rw [parentQueue] at hv
  obtain ⟨pname, _, rfl⟩ := List.mem_map.mp hv
  exact slotVal_okRef hwf pname

theorem heapWF_get {h : Heap κ} {c : Nat} {o : Obj κ}
    (hwf : heapWF h = true) (hg : hget h c = some o) : o.wfVals h.length = true :=
  List.all_eq_true.mp hwf o (hget_mem hg)

theorem noSlotFor_get {h : Heap κ} {name : String} {c : Nat} {o : Obj κ}
    (hnm : noSlotFor h name = true) (hg : hget h c = some o) :
    (o.slotVal name).truthy = false := by
  have := List.all_eq_true.mp hnm o (hget_mem hg)
  simpa using this

theorem hget_exists {h : Heap κ} {c : Nat} (hc : c < h.length) : ∃ o, hget h c = some o := by
  induction h generalizing c with
  | nil => simp at hc
  | cons a t ih =>
    cases c with
    | zero => exact ⟨a, rfl⟩
    | succ n => exact ih (by simpa using hc)

/-- A duplicate-free list of references bounded by `n` has at most `n`
elements (the visited set cannot outgrow the heap). -/
theorem nodup_refs_le (n : Nat) (l : List SlotVal) (hnd : l.Nodup)
    (hb : ∀ v ∈ l, ∃ c, v = SlotVal.ref c ∧ c < n) : l.length ≤ n := by
  classical
  have hndm : (l.map (fun v => match v with | SlotVal.ref c => c | _ => 0)).Nodup := by
    refine List.Nodup.map_on ?_ hnd
    intro x hx y hy hxy
    obtain ⟨cx, rfl, _⟩ := hb x hx
    obtain ⟨cy, rfl, _⟩ := hb y hy
    simpa using hxy
  have hsub : (l.map (fun v => match v with | SlotVal.ref c => c | _ => 0)).toFinset
      ⊆ Finset.range n := by
    intro a ha
    rw [List.mem_toFinset, List.mem_map] at ha
    obtain ⟨v, hv, rfl⟩ := ha
    obtain ⟨c, rfl, hc⟩ := hb v hv
    simpa [Finset.mem_range] using hc
  calc l.length = (l.map (fun v => match v with | SlotVal.ref c => c | _ => 0)).length := by simp
    _ = (l.map (fun v => match v with | SlotVal.ref c => c | _ => 0)).toFinset.card :=
        (List.toFinset_card_of_nodup hndm).symm
    _ ≤ (Finset.range n).card := Finset.card_le_card hsub
    _ = n := Finset.card_range n

/-- When no object of the heap provides `name`, the BFS loop terminates —
every reference is visited at most once, so for large enough fuel the loop
drains its queue and returns the `NotFound` sentinel with the heap
untouched. -/
theorem bfs_notFound_term (interp : NativeInterp κ) (h : Heap κ) (name : String)
    (hwf : heapWF h = true) (hnm : noSlotFor h name = true) :
    ∀ n (visited queue : List SlotVal),
      visited.Nodup →
      (∀ v ∈ visited, ∃ c, v = SlotVal.ref c ∧ c < h.length) →
      (∀ v ∈ queue, okRefVal h.length v = true) →
      h.length - visited.length = n →
      ∃ N, ∀ f, N ≤ f → bfs interp f h name visited queue = .ok h .vnull := by
  intro n
  induction n using Nat.strong_induction_on with
  | _ n ihn =>
    intro visited queue hnd hvr
    induction queue with
    | nil =>
      intro _ _
      refine ⟨1, ?_⟩
      intro f hf
      obtain ⟨f', rfl⟩ : ∃ f', f = f' + 1 := ⟨f - 1, by omega⟩
      simp [bfs]
    | cons w rest ihq =>
      intro hq hlen
      obtain ⟨N₁, hN₁⟩ := ihq (fun v hv => hq v (List.mem_cons_of_mem _ hv)) hlen
      by_cases hcond : ¬ w.truthy = true ∨ w ∈ visited
      · refine ⟨N₁ + 1, ?_⟩
        intro f hf
        obtain ⟨f', rfl⟩ : ∃ f', f = f' + 1 := ⟨f - 1, by omega⟩
        have hstep : bfs interp (f' + 1) h name visited (w :: rest)
            = bfs interp f' h name visited rest := by
          simp only [bfs]
          rw [if_pos hcond]
        rw [hstep]
        exact hN₁ f' (by omega)
      · push_neg at hcond
        obtain ⟨htr, hnv⟩ := hcond
        have hok := hq w (List.mem_cons_self w rest)
        obtain ⟨c, rfl, hclt⟩ : ∃ c, w = SlotVal.ref c ∧ c < h.length := by
          cases w with
          | ref c => exact ⟨c, rfl, by simpa [okRefVal] using hok⟩
          | vnull => simp [SlotVal.truthy] at htr
          | vundefined => simp [SlotVal.truthy] at htr
          | vbool b =>
            simp [SlotVal.truthy] at htr
            simp [okRefVal, SlotVal.truthy, htr] at hok
          | vnum m =>
            simp [okRefVal, SlotVal.truthy] at hok
            rw [hok] at htr
            simp [SlotVal.truthy] at htr
          | vstr t =>
            simp [okRefVal, SlotVal.truthy] at hok
            rw [hok] at htr
            simp [SlotVal.truthy] at htr
        obtain ⟨ob, hgc⟩ := hget_exists hclt
        have hnmc : (ob.slotVal name).truthy = false := noSlotFor_get hnm hgc
        have hvl : visited.length + 1 ≤ h.length := by
          refine nodup_refs_le h.length (SlotVal.ref c :: visited) ?_ ?_
          · exact List.nodup_cons.mpr ⟨hnv, hnd⟩
          · intro v hv
            rcases List.mem_cons.mp hv with hv | hv
            · exact ⟨c, hv, hclt⟩
            · exact hvr v hv
        obtain ⟨N₂, hN₂⟩ := ihn (h.length - (visited.length + 1)) (by omega)
          (SlotVal.ref c :: visited) (rest ++ parentQueue ob)
          (List.nodup_cons.mpr ⟨hnv, hnd⟩)
          (by
            intro v hv
            rcases List.mem_cons.mp hv with hv | hv
            · exact ⟨c, hv, hclt⟩
            · exact hvr v hv)
          (by
            intro v hv
            rcases List.mem_append.mp hv with hv | hv
            · exact hq v (List.mem_cons_of_mem _ hv)
            · exact parentQueue_okRef (heapWF_get hwf hgc) v hv)
          rfl
        refine ⟨N₂ + 1, ?_⟩
        intro f hf
        obtain ⟨f', rfl⟩ : ∃ f', f = f' + 1 := ⟨f - 1, by omega⟩
        have hstep : bfs interp (f' + 1) h name visited (SlotVal.ref c :: rest)
            = bfs interp f' h name (SlotVal.ref c :: visited) (rest ++ parentQueue ob) := by
          simp only [bfs]
          rw [if_neg (by simp [SlotVal.truthy, hnv])]
          simp only [hgc, hnmc, Bool.false_eq_true, if_false]
        rw [hstep]
        exact hN₂ f' (by omega)

/-- C7: on any well-formed parent graph — cycles and diamonds included —
dispatching a name that no object of the heap provides terminates: for all
sufficiently large fuel, `sendAMessage` returns the `NotFound` sentinel
(`null`) and leaves the heap unchanged. -/
theorem C7_cycle_diamond_termination (interp : NativeInterp κ) {h : Heap κ} {r : Nat}
    {o : Obj κ} {name : String}
    (hwf : heapWF h = true) (hnm : noSlotFor h name = true) (hr : hget h r = some o) :
    ∃ N, ∀ f, N ≤ f → sendAMessage interp f h r name = .ok h .vnull := by
  obtain ⟨N, hN⟩ := bfs_notFound_term interp h name hwf hnm h.length [] (parentQueue o)
    (by simp) (by simp) (parentQueue_okRef (heapWF_get hwf hr)) (by simp)
  refine ⟨N + 1, ?_⟩
  intro f hf
  obtain ⟨f', rfl⟩ : ∃ f', f = f' + 1 := ⟨f - 1, by omega⟩
  have hmiss : (o.slotVal name).truthy = false := noSlotFor_get hnm hr
  have h1 : sendAMessage interp (f' + 1) h r name
      = bfs interp f' h name [] (parentQueue o) := by
    simp only [sendAMessage, hr, hmiss, Bool.false_eq_true, if_false]
  rw [h1]
  exact hN f' (by omega)

theorem C7_cycle_diamond_termination_witness :
    (∃ N, ∀ f, N ≤ f → sendAMessage unitI f dH 0 "x" = .ok dH .vnull)
      ∧ sendAMessage unitI 12 dH 0 "x" = .ok dH .vnull := by
  constructor
  · exact @C7_cycle_diamond_termination Unit unitI dH 0 dA "x" (by decide) (by decide) rfl
  · decide

end SelfModel


